import Mathlib

/-!
# Rebalancer: greedy partition planning and the move protocol

A shallow embedding of `cmd/rebalancer/rebalancer.go`:

* `TblPartitions`, the per-host planning record;
* `generatePlanIter`, one pass of the outer `for` loop of `generatePlan`, and
  `generatePlanRun`, its iteration;
* `executePlan`, the detach / lock / rsync / rm / attach / unlock protocol, as a
  function that returns the error flag and the sequence of commands issued.

Go maps are association lists.  What the Go runtime leaves open is a
parameter: `GoRuntime.sortSlice` stands for `sort.Slice` and
`GoRuntime.rangeOrder` for the order in which a `range` over a map yields its
entries (which may change from one loop to the next).  The `int64` arithmetic of
the planner goes through `norm`, the reduction applied to the result of each
operation; the program runs with `wrap64`, Go's two's-complement wraparound.
-/

namespace Rebalancer

/-! ## Data model -/

/-- The partitions status of a host (`type TblPartitions struct`).  A nil
`ToMoveOut` map is `none`. -/
structure TblPartitions where
  Host : String
  Partitions : List (String × Int)
  TotalSize : Int
  ToMoveOut : Option (List (String × String))
  ToMoveIn : Bool
deriving DecidableEq, Repr

/-- Reduction of an integer to the `int64` range, as Go's signed overflow does. -/
def wrap64 (x : Int) : Int :=
  (x + 9223372036854775808) % 18446744073709551616 - 9223372036854775808

/-- The value `x` is representable as an `int64`. -/
def inInt64 (x : Int) : Prop :=
  -9223372036854775808 ≤ x ∧ x ≤ 9223372036854775807

instance inInt64.decidable (x : Int) : Decidable (inInt64 x) := by
  unfold inInt64
  exact inferInstance

/-- The parts of the Go runtime the program leaves open: the result of
`sort.Slice` and the order in which the `k`-th `range` loop visits a map. -/
structure GoRuntime where
  sortSlice : List TblPartitions → List TblPartitions
  rangeOrder : Nat → List (String × Int) → List (String × Int)

/-- What the proofs use of the runtime: `sort.Slice` rearranges the slice, and a
`range` loop yields every entry of the map once.  That the result of `sort.Slice`
is in ascending order is not needed by any proof, so it is not asked for. -/
def GoRuntime.Valid (rt : GoRuntime) : Prop :=
  (∀ l, (rt.sortSlice l).Perm l) ∧ (∀ k m, (rt.rangeOrder k m).Perm m)

/-- One insertion step of Go's insertion sort, on the reversed sorted part:
the new element travels left while `less` holds against its neighbour. -/
def bubbleLeft (x : TblPartitions) : List TblPartitions → List TblPartitions
  | [] => [x]
  | y :: ys => if x.TotalSize < y.TotalSize then y :: bubbleLeft x ys else x :: y :: ys

/-- The insertion sort that `sort.Slice` runs on short slices, with the
comparison `tbls[i].TotalSize < tbls[j].TotalSize` of `generatePlan`. -/
def insertionSort (l : List TblPartitions) : List TblPartitions :=
  (l.foldl (fun acc x => bubbleLeft x acc) []).reverse

/-- A concrete runtime: insertion sort, and maps visited in listed order. -/
def goRuntime : GoRuntime where
  sortSlice := insertionSort
  rangeOrder := fun _ m => m

/-- The map assignment `m[k] = v` on an association list. -/
def mapSet : List (String × String) → String → String → List (String × String)
  | [], k, v => [(k, v)]
  | (k', v') :: rest, k, v =>
    if k' = k then (k, v) :: rest else (k', v') :: mapSet rest k v

/-- The builtin `delete(m, k)` on an association list. -/
def mapDelete (m : List (String × Int)) (k : String) : List (String × Int) :=
  m.filter (fun e => decide (e.1 ≠ k))

/-! ## generatePlan -/

/-- The first loop of `generatePlan`:
`for minIdx = 0; minIdx < numTbls && tbls[minIdx].ToMoveOut != nil; minIdx++`. -/
def scanMin : List TblPartitions → Nat
  | [] => 0
  | t :: ts => if t.ToMoveOut.isSome then scanMin ts + 1 else 0

/-- Slice indexing `tbls[i]` with Go's bounds check; `none` is the run-time
panic "index out of range". -/
def index? (tbls : List TblPartitions) (i : Int) : Option TblPartitions :=
  if i < 0 then none else tbls[i.toNat]?

/-- The second loop of `generatePlan`:
`for maxIdx = numTbls - 1; minIdx >= 0 && tbls[maxIdx].ToMoveIn; maxIdx++`.
The result is `none` when `tbls[maxIdx]` panics.  The counter only grows and the
bounds check stops it at the length of the slice, so `numTbls + 1` rounds of
fuel are never used up (`scanMax_eq`). -/
def scanMax (tbls : List TblPartitions) (minIdx : Nat) : Nat → Int → Option Int
  | 0, _ => none
  | fuel + 1, maxIdx =>
    if (minIdx : Int) ≥ 0 then
      match index? tbls maxIdx with
      | none => none
      | some t => if t.ToMoveIn then scanMax tbls minIdx fuel (maxIdx + 1) else some maxIdx
    else some maxIdx

/-- A move recorded by the planner, with the totals of both hosts just before
it (bookkeeping for the statements; the program keeps only `ToMoveOut`). -/
structure Move where
  src : String
  dst : String
  patt : String
  size : Int
  srcTotal : Int
  dstTotal : Int
deriving DecidableEq, Repr

/-- How one pass of the outer loop ends. -/
inductive IterResult where
  | panicked (tbls : List TblPartitions)
  | done (tbls : List TblPartitions)
  | continued (tbls : List TblPartitions) (mv : Option Move)
deriving DecidableEq, Repr

/-- The destination candidate after a move of the entry `e`:
`minTbl.TotalSize += pattSize`. -/
def recvTbl (norm : Int → Int) (minTbl : TblPartitions) (e : String × Int) : TblPartitions :=
  { minTbl with TotalSize := norm (minTbl.TotalSize + e.2) }

/-- The source candidate after a move of the entry `e` to `minTbl`:
`maxTbl.TotalSize -= pattSize`, the map `ToMoveOut` is made if it is nil,
`maxTbl.ToMoveOut[patt] = minTbl.Host` and `delete(maxTbl.Partitions, patt)`. -/
def sendTbl (norm : Int → Int) (maxTbl minTbl : TblPartitions) (e : String × Int) :
    TblPartitions :=
  { maxTbl with
    TotalSize := norm (maxTbl.TotalSize - e.2)
    ToMoveOut := some (mapSet (maxTbl.ToMoveOut.getD []) e.1 minTbl.Host)
    Partitions := mapDelete maxTbl.Partitions e.1 }

/-- The record of the move of the entry `e` from `maxTbl` to `minTbl`. -/
def moveOf (maxTbl minTbl : TblPartitions) (e : String × Int) : Move :=
  ⟨maxTbl.Host, minTbl.Host, e.1, e.2, maxTbl.TotalSize, minTbl.TotalSize⟩

/-- The test of the inner loop: `maxTbl.TotalSize >= minTbl.TotalSize+2*pattSize`. -/
def fits (norm : Int → Int) (maxTbl minTbl : TblPartitions) (e : String × Int) : Bool :=
  decide (maxTbl.TotalSize ≥ norm (minTbl.TotalSize + norm (2 * e.2)))

/-- One pass of the outer `for` loop of `generatePlan`: sort, pick the two
candidates, `break` (`done`) when `minIdx >= maxIdx`, else scan the partitions of
the source candidate for the first one that passes `fits` and move it. -/
def generatePlanIter (norm : Int → Int) (rt : GoRuntime) (k : Nat)
    (tbls0 : List TblPartitions) : IterResult :=
  let tbls := rt.sortSlice tbls0
  let numTbls := tbls.length
  let minIdx := scanMin tbls
  match scanMax tbls minIdx (numTbls + 1) ((numTbls : Int) - 1) with
  | none => .panicked tbls
  | some maxIdx =>
    if (minIdx : Int) ≥ maxIdx then .done tbls
    else
      match tbls[minIdx]?, index? tbls maxIdx with
      | some minTbl, some maxTbl =>
        match (rt.rangeOrder k maxTbl.Partitions).find? (fits norm maxTbl minTbl) with
        | none => .continued tbls none
        | some e =>
          .continued
            ((tbls.set minIdx (recvTbl norm minTbl e)).set maxIdx.toNat
              (sendTbl norm maxTbl minTbl e))
            (some (moveOf maxTbl minTbl e))
      | _, _ => .panicked tbls

/-- Where the planner stands. -/
inductive Status where
  | running
  | finished
  | panicked
deriving DecidableEq, Repr

/-- The slice, the status of the loop and the moves recorded so far. -/
structure PlanState where
  tbls : List TblPartitions
  status : Status
  moves : List Move
deriving DecidableEq, Repr

/-- The state of `generatePlan` after at most `n` passes of its outer loop
(fewer when it has already reached its `break` or panicked). -/
def generatePlanRun (norm : Int → Int) (rt : GoRuntime) :
    Nat → List TblPartitions → PlanState
  | 0, tbls => ⟨tbls, .running, []⟩
  | n + 1, tbls =>
    let st := generatePlanRun norm rt n tbls
    match st.status with
    | .running =>
      match generatePlanIter norm rt n st.tbls with
      | .panicked t => ⟨t, .panicked, st.moves⟩
      | .done t => ⟨t, .finished, st.moves⟩
      | .continued t mv => ⟨t, .running, st.moves ++ mv.toList⟩
    | _ => st

/-- The sum of `TotalSize` over the slice. -/
def totalSum (tbls : List TblPartitions) : Int :=
  (tbls.map (fun t => t.TotalSize)).sum

/-- The entries of a `ToMoveOut` map (none for a nil map). -/
def moveEntries (t : TblPartitions) : List (String × String) :=
  t.ToMoveOut.getD []

/-! ## Sample clusters -/

/-- A fresh record as `getState` builds it: `TotalSize` is the sum of the
partition sizes, `ToMoveOut` is nil and `ToMoveIn` is false. -/
def mkTbl (host : String) (parts : List (String × Int)) : TblPartitions :=
  ⟨host, parts, (parts.map (fun e => e.2)).sum, none, false⟩

/-- Two hosts with totals 0 and 10, the second holding one partition of size 10. -/
def stuckCluster : List TblPartitions :=
  [mkTbl "h1" [], mkTbl "h2" [("p", 10)]]

/-- Three hosts with totals 1, 2 and 100. -/
def mixedCluster : List TblPartitions :=
  [mkTbl "h1" [("d", 1)], mkTbl "h2" [("e", 2)],
   mkTbl "h3" [("p", 49), ("q", 20), ("r", 31)]]

/-- Two hosts with equal totals 10; the second also holds a partition of size 0. -/
def zeroCluster : List TblPartitions :=
  [mkTbl "h1" [("a", 10)], mkTbl "h2" [("b", 10), ("c", 0)]]

/-- Two hosts with equal totals `2^62`, each holding one partition of size `2^62`. -/
def hugeBalancedCluster : List TblPartitions :=
  [mkTbl "h1" [("a", 4611686018427387904)], mkTbl "h2" [("b", 4611686018427387904)]]

/-- Two hosts with totals 1 and `2^62`, the second holding one partition of
size `2^62`, so that `2 * pattSize` overflows `int64`. -/
def hugeCluster : List TblPartitions :=
  [mkTbl "h1" [("a", 1)], mkTbl "h2" [("b", 4611686018427387904)]]

/-- Two hosts with totals 1 and 5; the one with the highest total is already
marked `ToMoveIn`. -/
def markedCluster : List TblPartitions :=
  [mkTbl "h1" [("a", 1)], ⟨"h2", [("b", 5)], 5, none, true⟩]

/-! ## executePlan -/

/-- A command or lock operation of `executePlan`, with the host whose connection
(or whose lock) it goes to. -/
inductive Op where
  | detach (host : String)
  | lock (key : String)
  | rsync (host : String) (dst : String)
  | rm (host : String)
  | attach (host : String)
  | unlock (key : String)
deriving DecidableEq, Repr

/-- An operation together with the `ToMoveOut` entry (partition, destination
host) whose loop pass issued it. -/
structure Event where
  entry : String × String
  op : Op
deriving DecidableEq, Repr

/-- The body of the loop of `executePlan` over the entries in the order given.
`ok c` tells whether the `c`-th catalog or remote command issued (counting from
`c = 0`) succeeds.  The result is `err != nil` and the operations performed:
DETACH on the source connection (return on failure), `lock.Lock()` for
`locks[dstHost]`, the two commands of `cmds` over the source session (unlock and
return on failure), ATTACH on the destination connection (unlock and return on
failure), `lock.Unlock()`.  The connections and the lock of the hosts involved
are taken to exist, as `initConns` makes them for every host, and `Lock` to
return. -/
def executeMoves (ok : Nat → Bool) (host : String) :
    Nat → List (String × String) → Bool × List Event
  | _, [] => (false, [])
  | c, e :: rest =>
    if ok c = false then
      (true, [⟨e, .detach host⟩])
    else if ok (c + 1) = false then
      (true, [⟨e, .detach host⟩, ⟨e, .lock e.2⟩, ⟨e, .rsync host e.2⟩, ⟨e, .unlock e.2⟩])
    else if ok (c + 2) = false then
      (true, [⟨e, .detach host⟩, ⟨e, .lock e.2⟩, ⟨e, .rsync host e.2⟩, ⟨e, .rm host⟩,
        ⟨e, .unlock e.2⟩])
    else if ok (c + 3) = false then
      (true, [⟨e, .detach host⟩, ⟨e, .lock e.2⟩, ⟨e, .rsync host e.2⟩, ⟨e, .rm host⟩,
        ⟨e, .attach e.2⟩, ⟨e, .unlock e.2⟩])
    else
      let r := executeMoves ok host (c + 4) rest
      (r.1, [⟨e, .detach host⟩, ⟨e, .lock e.2⟩, ⟨e, .rsync host e.2⟩, ⟨e, .rm host⟩,
        ⟨e, .attach e.2⟩, ⟨e, .unlock e.2⟩] ++ r.2)

/-- The function `executePlan`: nothing to do for a nil `ToMoveOut`, else the loop
over its entries in the order `ord` in which `range` yields them. -/
def executePlan (ok : Nat → Bool) (ord : List (String × String) → List (String × String))
    (tbl : TblPartitions) : Bool × List Event :=
  match tbl.ToMoveOut with
  | none => (false, [])
  | some m => executeMoves ok tbl.Host 0 (ord m)

/-- The operations of a move that goes through: detach, lock, rsync, rm, attach,
unlock. -/
def fullTrace (host : String) (e : String × String) : List Event :=
  [⟨e, .detach host⟩, ⟨e, .lock e.2⟩, ⟨e, .rsync host e.2⟩, ⟨e, .rm host⟩,
    ⟨e, .attach e.2⟩, ⟨e, .unlock e.2⟩]

/-- The operations of a move whose `j`-th command fails (0 the detach, 1 the
rsync, 2 the rm, 3 the attach): the commands up to the failing one, within the
lock and its release once the detach has gone through. -/
def abortedTrace (host : String) (e : String × String) : Nat → List Event
  | 0 => [⟨e, .detach host⟩]
  | 1 => [⟨e, .detach host⟩, ⟨e, .lock e.2⟩, ⟨e, .rsync host e.2⟩, ⟨e, .unlock e.2⟩]
  | 2 => [⟨e, .detach host⟩, ⟨e, .lock e.2⟩, ⟨e, .rsync host e.2⟩, ⟨e, .rm host⟩,
      ⟨e, .unlock e.2⟩]
  | _ => [⟨e, .detach host⟩, ⟨e, .lock e.2⟩, ⟨e, .rsync host e.2⟩, ⟨e, .rm host⟩,
      ⟨e, .attach e.2⟩, ⟨e, .unlock e.2⟩]

/-- Where a run stands with respect to the destination lock: between moves,
after the detach of the move for entry `e`, or holding the lock for `e`. -/
inductive LockPhase where
  | idle
  | detached (e : String × String)
  | holding (e : String × String)
deriving DecidableEq, Repr

/-- The lock discipline, checked along a sequence of operations: a move starts
with its detach; the only lock taken is the one keyed by the destination of that
move, right after the detach; transfer and attach commands occur only while it is
held; it is released once, by the same move, before the next detach; and the
sequence does not end while it is held. -/
def lockDiscipline : LockPhase → List Event → Bool
  | .idle, [] => true
  | .idle, ev :: rest =>
    match ev.op with
    | .detach _ => lockDiscipline (.detached ev.entry) rest
    | _ => false
  | .detached _, [] => true
  | .detached e, ev :: rest =>
    match ev.op with
    | .lock key => decide (ev.entry = e) && decide (key = e.2) && lockDiscipline (.holding e) rest
    | _ => false
  | .holding _, [] => false
  | .holding e, ev :: rest =>
    match ev.op with
    | .rsync _ _ => decide (ev.entry = e) && lockDiscipline (.holding e) rest
    | .rm _ => decide (ev.entry = e) && lockDiscipline (.holding e) rest
    | .attach _ => decide (ev.entry = e) && lockDiscipline (.holding e) rest
    | .unlock key => decide (ev.entry = e) && decide (key = e.2) && lockDiscipline .idle rest
    | _ => false

/-- A node with two planned moves, to `h2` and to `h3`. -/
def plannedTbl : TblPartitions :=
  ⟨"h1", [("r", 7)], 7, some [("p", "h2"), ("q", "h3")], false⟩

/-- Command outcomes in which only the command numbered `i` fails. -/
def failsAt (i : Nat) (c : Nat) : Bool := decide (c ≠ i)

/-! ## Supporting lemmas -/

theorem bubbleLeft_perm (x : TblPartitions) (l : List TblPartitions) :
    (bubbleLeft x l).Perm (x :: l) := by
  induction l with
  | nil => exact List.Perm.refl _
  | cons y ys ih =>
    unfold bubbleLeft
    split
    · exact ((List.Perm.cons y ih).trans (List.Perm.swap x y ys))
    · exact List.Perm.refl _

theorem foldl_bubbleLeft_perm (l acc : List TblPartitions) :
    (l.foldl (fun acc x => bubbleLeft x acc) acc).Perm (l ++ acc) := by
  induction l generalizing acc with
  | nil => exact List.Perm.refl _
  | cons x xs ih =>
    simp only [List.foldl_cons, List.cons_append]
    refine (ih (bubbleLeft x acc)).trans ?_
    refine (List.Perm.append_left xs (bubbleLeft_perm x acc)).trans ?_
    exact List.perm_middle

theorem insertionSort_perm (l : List TblPartitions) : (insertionSort l).Perm l := by
  unfold insertionSort
  refine (List.reverse_perm _).trans ?_
  simpa using foldl_bubbleLeft_perm l []

theorem goRuntime_valid : goRuntime.Valid :=
  ⟨insertionSort_perm, fun _ m => List.Perm.refl m⟩

/-- The fuel of `scanMax` is enough: from `numTbls - 1` the loop either stops at
once, or panics on an empty slice, or steps to `numTbls` and panics there. -/
theorem scanMax_eq (tbls : List TblPartitions) (minIdx : Nat) :
    scanMax tbls minIdx (tbls.length + 1) ((tbls.length : Int) - 1) =
      match tbls.getLast? with
      | none => none
      | some t => if t.ToMoveIn then none else some ((tbls.length : Int) - 1) := by
  rcases List.eq_nil_or_concat tbls with h | ⟨l, t, h⟩
  · subst h
    simp [scanMax, index?]
  · rw [List.concat_eq_append] at h
    subst h
    have h1 : index? (l ++ [t]) (((l ++ [t]).length : Int) - 1) = some t := by
      simp [index?]
    have h2 : index? (l ++ [t]) (((l ++ [t]).length : Int) - 1 + 1) = none := by
      have : (((l ++ [t]).length : Int) - 1 + 1).toNat = (l ++ [t]).length := by
        simp
      unfold index?
      rw [this]
      simp
    have h3 : (l ++ [t]).length + 1 = (l.length + 1) + 1 := by simp
    rw [h3]
    simp only [scanMax, h1, h2, List.getLast?_append, List.getLast?_singleton]
    simp

/-- The four ways a pass of the outer loop can end.  In the last one the
two candidates sit at positions `i < j` of the sorted slice and `e` is an entry
the `range` loop yielded that passed the test. -/
theorem generatePlanIter_cases (norm : Int → Int) (rt : GoRuntime) (k : Nat)
    (tbls0 : List TblPartitions) :
    generatePlanIter norm rt k tbls0 = .panicked (rt.sortSlice tbls0) ∨
    generatePlanIter norm rt k tbls0 = .done (rt.sortSlice tbls0) ∨
    generatePlanIter norm rt k tbls0 = .continued (rt.sortSlice tbls0) none ∨
    ∃ i j minTbl maxTbl e, i < j ∧ (rt.sortSlice tbls0)[i]? = some minTbl ∧
      (rt.sortSlice tbls0)[j]? = some maxTbl ∧
      e ∈ rt.rangeOrder k maxTbl.Partitions ∧ fits norm maxTbl minTbl e = true ∧
      generatePlanIter norm rt k tbls0 =
        .continued (((rt.sortSlice tbls0).set i (recvTbl norm minTbl e)).set j
          (sendTbl norm maxTbl minTbl e)) (some (moveOf maxTbl minTbl e)) := by
  unfold generatePlanIter
  simp only []
  split
  · exact Or.inl rfl
  · rename_i maxIdx _
    split
    · exact Or.inr (Or.inl rfl)
    · rename_i hlt
      split
      · rename_i minTbl maxTbl hmin hmax
        split
        · exact Or.inr (Or.inr (Or.inl rfl))
        · rename_i e he
          refine Or.inr (Or.inr (Or.inr
            ⟨scanMin (rt.sortSlice tbls0), maxIdx.toNat, minTbl, maxTbl, e, ?_, hmin, ?_,
              List.mem_of_find?_eq_some he, List.find?_some he, rfl⟩))
          · omega
          · unfold index? at hmax
            split at hmax
            · exact absurd hmax (by simp)
            · exact hmax
      · exact Or.inl rfl

/-- Proof rule for the planner: a property of the slice and the recorded moves
that holds at the start, survives `sort.Slice` and survives every move, holds
after any number of passes. -/
theorem generatePlanRun_invariant (norm : Int → Int) (rt : GoRuntime)
    (P : List TblPartitions → List Move → Prop) (tbls : List TblPartitions)
    (h0 : P tbls [])
    (hsort : ∀ l mvs, P l mvs → P (rt.sortSlice l) mvs)
    (hmove : ∀ (k : Nat) l mvs i j minTbl maxTbl e, P l mvs → i < j →
      l[i]? = some minTbl → l[j]? = some maxTbl →
      e ∈ rt.rangeOrder k maxTbl.Partitions → fits norm maxTbl minTbl e = true →
      P ((l.set i (recvTbl norm minTbl e)).set j (sendTbl norm maxTbl minTbl e))
        (mvs ++ [moveOf maxTbl minTbl e]))
    (n : Nat) :
    P (generatePlanRun norm rt n tbls).tbls (generatePlanRun norm rt n tbls).moves := by
  induction n with
  | zero => exact h0
  | succ n ih =>
    simp only [generatePlanRun]
    split
    · have hs := hsort _ _ ih
      rcases generatePlanIter_cases norm rt n (generatePlanRun norm rt n tbls).tbls with
        h | h | h | ⟨i, j, minTbl, maxTbl, e, hij, hi, hj, he, hfit, h⟩
      · rw [h]; exact hs
      · rw [h]; exact hs
      · rw [h]; simpa using hs
      · rw [h]
        exact hmove n _ _ i j minTbl maxTbl e hs hij hi hj he hfit
    · exact ih

theorem totalSum_set (l : List TblPartitions) (i : Nat) (a b : TblPartitions)
    (h : l[i]? = some a) :
    totalSum (l.set i b) = totalSum l - a.TotalSize + b.TotalSize := by
  induction l generalizing i with
  | nil => simp at h
  | cons x xs ih =>
    cases i with
    | zero =>
      simp at h
      subst h
      simp only [totalSum, List.set_cons_zero, List.map_cons, List.sum_cons]
      ring
    | succ i =>
      simp at h
      have := ih i h
      simp only [totalSum, List.set_cons_succ, List.map_cons, List.sum_cons] at this ⊢
      rw [this]
      ring

theorem getElem?_set_other (l : List TblPartitions) (i j : Nat) (b : TblPartitions)
    (hij : i < j) : (l.set i b)[j]? = l[j]? := by
  rw [List.getElem?_set_ne (by omega)]

theorem mem_of_getElem?_some (l : List TblPartitions) (i : Nat) (a : TblPartitions)
    (h : l[i]? = some a) : a ∈ l := by
  rw [List.getElem?_eq_some_iff] at h
  obtain ⟨hi, rfl⟩ := h
  exact List.getElem_mem hi

theorem mem_set_set (l : List TblPartitions) (i j : Nat) (a b t : TblPartitions)
    (h : t ∈ (l.set i a).set j b) : t ∈ l ∨ t = a ∨ t = b := by
  rcases List.mem_or_eq_of_mem_set h with h | h
  · rcases List.mem_or_eq_of_mem_set h with h | h
    · exact Or.inl h
    · exact Or.inr (Or.inl h)
  · exact Or.inr (Or.inr h)

theorem totalSum_move (norm : Int → Int) (l : List TblPartitions) (i j : Nat)
    (minTbl maxTbl : TblPartitions) (e : String × Int) (hij : i < j)
    (hi : l[i]? = some minTbl) (hj : l[j]? = some maxTbl) :
    totalSum ((l.set i (recvTbl norm minTbl e)).set j (sendTbl norm maxTbl minTbl e)) =
      totalSum l - minTbl.TotalSize - maxTbl.TotalSize
        + norm (minTbl.TotalSize + e.2) + norm (maxTbl.TotalSize - e.2) := by
  have hj2 : (l.set i (recvTbl norm minTbl e))[j]? = some maxTbl := by
    rw [getElem?_set_other l i j _ hij]; exact hj
  rw [totalSum_set _ j maxTbl _ hj2, totalSum_set l i minTbl _ hi]
  simp only [recvTbl, sendTbl]
  ring

theorem totalSum_perm (l l2 : List TblPartitions) (h : l.Perm l2) :
    totalSum l = totalSum l2 := by
  unfold totalSum
  exact (h.map (fun t : TblPartitions => t.TotalSize)).sum_eq

theorem mem_mapDelete (m : List (String × Int)) (k : String) (e : String × Int)
    (h : e ∈ mapDelete m k) : e ∈ m :=
  (List.mem_filter.1 h).1

/-- A condition on the input under which no `TotalSize` update overflows: when
all partition sizes `s` are non-negative, every `TotalSize` of the input lies
between `m` and `M`, `m` is an `int64` and `M + 2*s` stays within `int64`, then for
every recorded move the new totals `dstTotal + size` and `srcTotal - size` are
within `int64`. -/
theorem planMoves_inInt64 (rt : GoRuntime) (hrt : rt.Valid)
    (tbls : List TblPartitions) (m M : Int) (hm : -9223372036854775808 ≤ m)
    (hb : ∀ t ∈ tbls, m ≤ t.TotalSize ∧ t.TotalSize ≤ M)
    (hsz : ∀ t ∈ tbls, ∀ e ∈ t.Partitions, 0 ≤ e.2 ∧ M + 2 * e.2 ≤ 9223372036854775807)
    (n : Nat) :
    ∀ mv ∈ (generatePlanRun wrap64 rt n tbls).moves,
      inInt64 (mv.dstTotal + mv.size) ∧ inInt64 (mv.srcTotal - mv.size) := by
  have key := generatePlanRun_invariant wrap64 rt
    (fun l mvs =>
      (∀ t ∈ l, (m ≤ t.TotalSize ∧ t.TotalSize ≤ M) ∧
        ∀ e ∈ t.Partitions, 0 ≤ e.2 ∧ M + 2 * e.2 ≤ 9223372036854775807) ∧
      (∀ mv ∈ mvs, inInt64 (mv.dstTotal + mv.size) ∧ inInt64 (mv.srcTotal - mv.size)))
    tbls ⟨fun t ht => ⟨hb t ht, hsz t ht⟩, fun mv hmv => by simp at hmv⟩ ?_ ?_ n
  · exact key.2
  · intro l _ h
    exact ⟨fun t ht => h.1 t ((hrt.1 l).subset ht), h.2⟩
  · intro k l mvs i j minTbl maxTbl e h _ hi hj he hfit
    have hmin := h.1 minTbl (mem_of_getElem?_some l i minTbl hi)
    have hmax := h.1 maxTbl (mem_of_getElem?_some l j maxTbl hj)
    have he2 := hmax.2 e ((hrt.2 k _).subset he)
    simp only [fits, decide_eq_true_eq, wrap64] at hfit
    refine ⟨fun t ht => ?_, fun mv hmv => ?_⟩
    · rcases mem_set_set l i j _ _ t ht with ht | ht | ht
      · exact h.1 t ht
      · subst ht
        refine ⟨?_, hmin.2⟩
        simp only [recvTbl, wrap64]
        omega
      · subst ht
        refine ⟨?_, fun e2 h2 => hmax.2 e2 (mem_mapDelete _ _ _ h2)⟩
        simp only [sendTbl, wrap64]
        omega
    · rcases List.mem_append.1 hmv with hmv | hmv
      · exact h.2 mv hmv
      · simp only [List.mem_singleton] at hmv
        subst hmv
        simp only [moveOf, inInt64]
        omega

/-- Under `int64` wraparound the sum of the totals is kept modulo `2^64`. -/
theorem planTotal_mod64 (rt : GoRuntime) (hrt : rt.Valid) (tbls : List TblPartitions)
    (n : Nat) :
    totalSum (generatePlanRun wrap64 rt n tbls).tbls % 18446744073709551616 =
      totalSum tbls % 18446744073709551616 := by
  refine generatePlanRun_invariant wrap64 rt
    (fun l _ => totalSum l % 18446744073709551616 = totalSum tbls % 18446744073709551616)
    tbls rfl ?_ ?_ n
  · intro l _ h
    rw [totalSum_perm _ _ (hrt.1 l)]; exact h
  · intro _ l _ i j minTbl maxTbl e h hij hi hj _ _
    rw [totalSum_move wrap64 l i j minTbl maxTbl e hij hi hj]
    simp only [wrap64]
    omega

/-- A pass panics exactly when the sorted slice is empty or its last node is
marked `ToMoveIn`. -/
theorem generatePlanIter_panicked_iff (norm : Int → Int) (rt : GoRuntime) (k : Nat)
    (tbls : List TblPartitions) :
    generatePlanIter norm rt k tbls = .panicked (rt.sortSlice tbls) ↔
      (rt.sortSlice tbls = [] ∨ ∃ t, (rt.sortSlice tbls).getLast? = some t ∧ t.ToMoveIn = true) := by
  unfold generatePlanIter
  simp only []
  rw [scanMax_eq]
  rcases List.eq_nil_or_concat (rt.sortSlice tbls) with h | ⟨l, t, h⟩
  · rw [h]; simp
  · rw [List.concat_eq_append] at h
    rw [h]
    simp only [List.getLast?_append, List.getLast?_singleton, Option.or_some]
    by_cases ht : t.ToMoveIn = true
    · simp [ht]
    · simp only [ht]
      have hidx : index? (l ++ [t]) (((l ++ [t]).length : Int) - 1) = some t := by
        simp [index?]
      have hif : (if false = true then (none : Option Int)
          else some (((l ++ [t]).length : Int) - 1)) = some (((l ++ [t]).length : Int) - 1) := by
        simp
      rw [hif]
      simp only [hidx]
      split
      · simp [ht]
      · rename_i hlt
        have hlen : scanMin (l ++ [t]) < (l ++ [t]).length := by omega
        rw [List.getElem?_eq_getElem hlen]
        split
        · split <;> simp [ht]
        · rename_i hx
          exact (hx _ _ rfl rfl).elim

/-! ## The planner: conservation and no-overshoot -/

/-- C1 as stated fails: on two nodes with totals `2^62`, each holding one
partition of size `2^62`, built as `getState` builds them, the first pass moves
`b`; the destination total `2^62 + 2^62` wraps to `-2^63`, and the sum of
`TotalSize` goes from `2^63` to `-2^63`. -/
theorem generatePlan_total_counterexample :
    (∀ t ∈ hugeBalancedCluster, t.ToMoveOut = none ∧ t.ToMoveIn = false ∧ inInt64 t.TotalSize) ∧
      totalSum hugeBalancedCluster = 9223372036854775808 ∧
      (generatePlanRun wrap64 goRuntime 1 hugeBalancedCluster).moves =
        [⟨"h2", "h1", "b", 4611686018427387904, 4611686018427387904, 4611686018427387904⟩] ∧
      totalSum (generatePlanRun wrap64 goRuntime 1 hugeBalancedCluster).tbls =
        -9223372036854775808 := by
  decide

/-- C1 (conservation), amended: for every list of nodes, every runtime and every
number of passes of the outer loop of `generatePlan` (in particular in the state
in which it returns), if no `TotalSize` update of a move recorded so far
overflowed `int64` (the destination total plus the size, and the source total
minus the size, are within `int64`), the sum of `TotalSize` over all nodes equals
the sum over the input list. -/
theorem generatePlan_conserves_total (rt : GoRuntime) (hrt : rt.Valid)
    (tbls : List TblPartitions) (n : Nat)
    (hov : ∀ mv ∈ (generatePlanRun wrap64 rt n tbls).moves,
      inInt64 (mv.dstTotal + mv.size) ∧ inInt64 (mv.srcTotal - mv.size)) :
    totalSum (generatePlanRun wrap64 rt n tbls).tbls = totalSum tbls := by
  refine generatePlanRun_invariant wrap64 rt
    (fun l mvs =>
      (∀ mv ∈ mvs, inInt64 (mv.dstTotal + mv.size) ∧ inInt64 (mv.srcTotal - mv.size)) →
        totalSum l = totalSum tbls)
    tbls (fun _ => rfl) ?_ ?_ n hov
  · intro l _ h hmv
    rw [totalSum_perm _ _ (hrt.1 l)]; exact h hmv
  · intro _ l mvs i j minTbl maxTbl e h hij hi hj _ _ hmv
    have hold := h (fun mv hm => hmv mv (List.mem_append_left _ hm))
    have hnew := hmv (moveOf maxTbl minTbl e) (List.mem_append_right _ (List.mem_singleton.2 rfl))
    rw [totalSum_move wrap64 l i j minTbl maxTbl e hij hi hj, hold]
    simp only [moveOf, inInt64] at hnew
    simp only [wrap64]
    omega

/-- Witness of the amended C1 on the three-host sample cluster, three passes
(three moves). -/
theorem generatePlan_conserves_total_witness :
    goRuntime.Valid ∧
      (∀ mv ∈ (generatePlanRun wrap64 goRuntime 3 mixedCluster).moves,
        inInt64 (mv.dstTotal + mv.size) ∧ inInt64 (mv.srcTotal - mv.size)) ∧
      (generatePlanRun wrap64 goRuntime 3 mixedCluster).moves.length = 3 ∧
      totalSum (generatePlanRun wrap64 goRuntime 3 mixedCluster).tbls = totalSum mixedCluster :=
  ⟨goRuntime_valid, by decide, by decide,
    generatePlan_conserves_total goRuntime goRuntime_valid mixedCluster 3 (by decide)⟩

/-- C2 (no overshoot): every move that `generatePlan` records, of a partition of
size `s` from a source with total `A` to a destination with total `B` (both just
before the move), has `A ≥ B + 2*s`, and so `B + s ≤ A - s`, provided `B + 2*s`
does not overflow `int64`. -/
theorem generatePlan_no_overshoot (rt : GoRuntime) (tbls : List TblPartitions) (n : Nat)
    (mv : Move) (hmv : mv ∈ (generatePlanRun wrap64 rt n tbls).moves)
    (hov : inInt64 (mv.dstTotal + 2 * mv.size)) :
    mv.srcTotal ≥ mv.dstTotal + 2 * mv.size ∧
      mv.dstTotal + mv.size ≤ mv.srcTotal - mv.size := by
  have key : ∀ m ∈ (generatePlanRun wrap64 rt n tbls).moves,
      inInt64 (m.dstTotal + 2 * m.size) → m.srcTotal ≥ m.dstTotal + 2 * m.size := by
    refine generatePlanRun_invariant wrap64 rt
      (fun _ mvs => ∀ m ∈ mvs,
        inInt64 (m.dstTotal + 2 * m.size) → m.srcTotal ≥ m.dstTotal + 2 * m.size)
      tbls ?_ ?_ ?_ n
    · intro m hm; simp at hm
    · intro _ _ h; exact h
    · intro _ l mvs i j minTbl maxTbl e h _ _ _ _ hfit m hm hin
      rcases List.mem_append.1 hm with hm | hm
      · exact h m hm hin
      · simp only [List.mem_singleton] at hm
        subst hm
        simp only [moveOf, inInt64] at hin ⊢
        simp only [fits, decide_eq_true_eq, wrap64] at hfit
        omega
  have := key mv hmv hov
  constructor
  · exact this
  · omega

/-- Witness of C2: the first move planned on the sample cluster (49 out of 100
to a host with total 1). -/
theorem generatePlan_no_overshoot_witness :
    (⟨"h3", "h1", "p", 49, 100, 1⟩ : Move) ∈ (generatePlanRun wrap64 goRuntime 1 mixedCluster).moves ∧
      inInt64 (1 + 2 * 49) ∧ (100 : Int) ≥ 1 + 2 * 49 ∧ (1 : Int) + 49 ≤ 100 - 49 :=
  ⟨by decide, by unfold inInt64; decide,
    generatePlan_no_overshoot goRuntime mixedCluster 1 ⟨"h3", "h1", "p", 49, 100, 1⟩
      (by decide) (by unfold inInt64; decide)⟩

/-! ## The planner: balanced clusters and the spread of the totals -/

/-- C5 as stated fails: on a cluster whose totals are all 10, built as `getState`
builds it, the first pass already plans a move (of the partition of size 0); and
on a cluster whose totals are all `2^62` the test wraps round and the first pass
moves a partition of size `2^62`. -/
theorem generatePlan_balanced_counterexample :
    ((∀ t ∈ zeroCluster, t.TotalSize = 10 ∧ t.ToMoveOut = none ∧ t.ToMoveIn = false) ∧
      (generatePlanRun wrap64 goRuntime 1 zeroCluster).moves = [⟨"h2", "h1", "c", 0, 10, 10⟩] ∧
      (∃ t ∈ (generatePlanRun wrap64 goRuntime 1 zeroCluster).tbls,
        t.Host = "h2" ∧ t.ToMoveOut = some [("c", "h1")] ∧ t.Partitions = [("b", 10)])) ∧
    ((∀ t ∈ hugeBalancedCluster,
        t.TotalSize = 4611686018427387904 ∧ t.ToMoveOut = none ∧ t.ToMoveIn = false) ∧
      (∃ t ∈ (generatePlanRun wrap64 goRuntime 1 hugeBalancedCluster).tbls,
        t.Host = "h2" ∧ t.ToMoveOut = some [("b", "h1")] ∧ t.TotalSize = 0)) := by
  decide

/-- C5, amended: on a list of nodes whose `TotalSize` values are all equal to
`T` and whose partition sizes `s` are all strictly positive with `T + 2*s` within
`int64`, no pass of `generatePlan` records a move, and the slice stays a
rearrangement of the input records: no `ToMoveOut` entry is added, no `TotalSize`
changes and no partition is removed. -/
theorem generatePlan_balanced_no_moves (rt : GoRuntime) (hrt : rt.Valid)
    (tbls : List TblPartitions) (T : Int)
    (heq : ∀ t ∈ tbls, t.TotalSize = T)
    (hsz : ∀ t ∈ tbls, ∀ e ∈ t.Partitions, 0 < e.2 ∧ T + 2 * e.2 ≤ 9223372036854775807)
    (n : Nat) :
    (generatePlanRun wrap64 rt n tbls).tbls.Perm tbls ∧
      (generatePlanRun wrap64 rt n tbls).moves = [] := by
  refine generatePlanRun_invariant wrap64 rt (fun l mvs => l.Perm tbls ∧ mvs = []) tbls
    ⟨List.Perm.refl _, rfl⟩ ?_ ?_ n
  · intro l _ h
    exact ⟨(hrt.1 l).trans h.1, h.2⟩
  · intro k l _ i j minTbl maxTbl e h _ hi hj he hfit
    exfalso
    have hmin := h.1.subset (mem_of_getElem?_some l i minTbl hi)
    have hmax := h.1.subset (mem_of_getElem?_some l j maxTbl hj)
    have he2 := hsz maxTbl hmax e ((hrt.2 k _).subset he)
    have h1 := heq minTbl hmin
    have h2 := heq maxTbl hmax
    simp only [fits, decide_eq_true_eq, wrap64] at hfit
    omega

/-- Witness of the amended C5: two hosts, each with one partition of size 10. -/
theorem generatePlan_balanced_no_moves_witness :
    goRuntime.Valid ∧
      (generatePlanRun wrap64 goRuntime 4
          [mkTbl "h1" [("a", 10)], mkTbl "h2" [("b", 10)]]).tbls.Perm
        [mkTbl "h1" [("a", 10)], mkTbl "h2" [("b", 10)]] ∧
      (generatePlanRun wrap64 goRuntime 4
          [mkTbl "h1" [("a", 10)], mkTbl "h2" [("b", 10)]]).moves = [] :=
  ⟨goRuntime_valid,
    generatePlan_balanced_no_moves goRuntime goRuntime_valid
      [mkTbl "h1" [("a", 10)], mkTbl "h2" [("b", 10)]] 10 (by decide) (by decide) 4⟩

/-- C6 as stated fails: with non-negative partition sizes, one pass on
`hugeCluster` lifts the total of `h1` to `2^62 + 1`, above every total of the
input (the test `maxTbl.TotalSize >= minTbl.TotalSize+2*pattSize` wraps round). -/
theorem generatePlan_spread_counterexample :
    (∀ t ∈ hugeCluster, ∀ e ∈ t.Partitions, 0 ≤ e.2) ∧
      (∀ t ∈ hugeCluster, t.TotalSize ≤ 4611686018427387904) ∧
      (∃ t ∈ (generatePlanRun wrap64 goRuntime 1 hugeCluster).tbls,
        t.TotalSize = 4611686018427387905) := by
  decide

/-- C6, amended: when all partition sizes `s` are non-negative, every
`TotalSize` of the input lies between `m` and `M`, and `M + 2*s` stays within
`int64`, then after every pass of the outer loop every `TotalSize` still lies
between `m` and `M`: the largest total never grows, the smallest never shrinks,
and the spread stays at most `M - m`. -/
theorem generatePlan_spread_bounded (rt : GoRuntime) (hrt : rt.Valid)
    (tbls : List TblPartitions) (m M : Int) (hm : -9223372036854775808 ≤ m)
    (hb : ∀ t ∈ tbls, m ≤ t.TotalSize ∧ t.TotalSize ≤ M)
    (hsz : ∀ t ∈ tbls, ∀ e ∈ t.Partitions, 0 ≤ e.2 ∧ M + 2 * e.2 ≤ 9223372036854775807)
    (n : Nat) :
    (∀ t ∈ (generatePlanRun wrap64 rt n tbls).tbls, m ≤ t.TotalSize ∧ t.TotalSize ≤ M) ∧
      (∀ t ∈ (generatePlanRun wrap64 rt n tbls).tbls,
        ∀ u ∈ (generatePlanRun wrap64 rt n tbls).tbls, t.TotalSize - u.TotalSize ≤ M - m) := by
  have key : ∀ t ∈ (generatePlanRun wrap64 rt n tbls).tbls,
      (m ≤ t.TotalSize ∧ t.TotalSize ≤ M) ∧
        ∀ e ∈ t.Partitions, 0 ≤ e.2 ∧ M + 2 * e.2 ≤ 9223372036854775807 := by
    refine generatePlanRun_invariant wrap64 rt
      (fun l _ => ∀ t ∈ l, (m ≤ t.TotalSize ∧ t.TotalSize ≤ M) ∧
        ∀ e ∈ t.Partitions, 0 ≤ e.2 ∧ M + 2 * e.2 ≤ 9223372036854775807)
      tbls (fun t ht => ⟨hb t ht, hsz t ht⟩) ?_ ?_ n
    · intro l _ h t ht
      exact h t ((hrt.1 l).subset ht)
    · intro k l _ i j minTbl maxTbl e h _ hi hj he hfit t ht
      have hmin := h minTbl (mem_of_getElem?_some l i minTbl hi)
      have hmax := h maxTbl (mem_of_getElem?_some l j maxTbl hj)
      have he2 := hmax.2 e ((hrt.2 k _).subset he)
      simp only [fits, decide_eq_true_eq, wrap64] at hfit
      rcases mem_set_set l i j _ _ t ht with ht | ht | ht
      · exact h t ht
      · subst ht
        refine ⟨?_, hmin.2⟩
        simp only [recvTbl, wrap64]
        omega
      · subst ht
        refine ⟨?_, fun e2 h2 => hmax.2 e2 (mem_mapDelete _ _ _ h2)⟩
        simp only [sendTbl, wrap64]
        omega
  refine ⟨fun t ht => (key t ht).1, fun t ht u hu => ?_⟩
  have h1 := (key t ht).1
  have h2 := (key u hu).1
  omega

/-- Witness of the amended C6: the three-host cluster with totals 100, 100, 10,
all of whose totals stay between 10 and 100. -/
theorem generatePlan_spread_bounded_witness :
    goRuntime.Valid ∧
      (∀ t ∈ (generatePlanRun wrap64 goRuntime 3
          [mkTbl "h1" [("a", 100)], mkTbl "h2" [("b", 100)], mkTbl "h3" [("c", 10)]]).tbls,
        10 ≤ t.TotalSize ∧ t.TotalSize ≤ 100) :=
  ⟨goRuntime_valid,
    (generatePlan_spread_bounded goRuntime goRuntime_valid
      [mkTbl "h1" [("a", 100)], mkTbl "h2" [("b", 100)], mkTbl "h3" [("c", 10)]]
      10 100 (by decide) (by decide) (by decide) 3).1⟩

/-! ## The planner: what a recorded move names -/

theorem mem_mapSet (m : List (String × String)) (k v : String) (pd : String × String)
    (h : pd ∈ mapSet m k v) : pd ∈ m ∨ pd = (k, v) := by
  induction m with
  | nil => simpa [mapSet] using h
  | cons x xs ih =>
    obtain ⟨k2, v2⟩ := x
    simp only [mapSet] at h
    split at h
    · rcases List.mem_cons.1 h with h | h
      · exact Or.inr h
      · exact Or.inl (List.mem_cons_of_mem _ h)
    · rcases List.mem_cons.1 h with h | h
      · exact Or.inl (h ▸ List.mem_cons_self _ _)
      · rcases ih h with h | h
        · exact Or.inl (List.mem_cons_of_mem _ h)
        · exact Or.inr h

theorem hosts_set (l : List TblPartitions) (i : Nat) (a b : TblPartitions)
    (h : l[i]? = some a) (hab : b.Host = a.Host) :
    (l.set i b).map (fun t => t.Host) = l.map (fun t => t.Host) := by
  induction l generalizing i with
  | nil => simp
  | cons x xs ih =>
    cases i with
    | zero =>
      simp at h
      subst h
      simp [hab]
    | succ i =>
      simp at h
      simp [ih i h]

theorem host_ne_of_nodup (l : List TblPartitions) (i j : Nat) (a b : TblPartitions)
    (hnd : (l.map (fun t => t.Host)).Nodup) (hij : i < j)
    (hi : l[i]? = some a) (hj : l[j]? = some b) : a.Host ≠ b.Host := by
  intro hab
  have hjl : j < (l.map (fun t => t.Host)).length := by
    rw [List.length_map]
    rw [List.getElem?_eq_some_iff] at hj
    exact hj.1
  have := (List.nodup_iff_getElem?_ne_getElem?.1 hnd) i j hij hjl
  apply this
  simp [List.getElem?_map, hi, hj, hab]

/-- C10 (no self-move): on a list with pairwise distinct hosts and `ToMoveOut`
unset on every node, after any number of passes every entry of a node's
`ToMoveOut`, and every move ever recorded, maps a partition that the node held in
the input to the host of a different node of the input list. -/
theorem generatePlan_no_self_move (norm : Int → Int) (rt : GoRuntime) (hrt : rt.Valid)
    (tbls : List TblPartitions) (hnd : (tbls.map (fun t => t.Host)).Nodup)
    (hnil : ∀ t ∈ tbls, t.ToMoveOut = none) (n : Nat) :
    (∀ t ∈ (generatePlanRun norm rt n tbls).tbls, ∀ pd ∈ moveEntries t,
      pd.2 ≠ t.Host ∧ pd.2 ∈ tbls.map (fun u => u.Host) ∧
        ∃ t0 ∈ tbls, t0.Host = t.Host ∧ pd.1 ∈ t0.Partitions.map (fun e => e.1)) ∧
    (∀ mv ∈ (generatePlanRun norm rt n tbls).moves,
      mv.dst ≠ mv.src ∧ mv.dst ∈ tbls.map (fun u => u.Host) ∧
        ∃ t0 ∈ tbls, t0.Host = mv.src ∧ (mv.patt, mv.size) ∈ t0.Partitions) := by
  have key := generatePlanRun_invariant norm rt
    (fun l mvs =>
      (l.map (fun t => t.Host)).Perm (tbls.map (fun t => t.Host)) ∧
      (∀ t ∈ l, ∃ t0 ∈ tbls, t0.Host = t.Host ∧ (∀ e ∈ t.Partitions, e ∈ t0.Partitions) ∧
        ∀ pd ∈ moveEntries t, pd.2 ≠ t.Host ∧ pd.2 ∈ tbls.map (fun u => u.Host) ∧
          pd.1 ∈ t0.Partitions.map (fun e => e.1)) ∧
      (∀ mv ∈ mvs, mv.dst ≠ mv.src ∧ mv.dst ∈ tbls.map (fun u => u.Host) ∧
        ∃ t0 ∈ tbls, t0.Host = mv.src ∧ (mv.patt, mv.size) ∈ t0.Partitions))
    tbls ?_ ?_ ?_ n
  · obtain ⟨_, h2, h3⟩ := key
    refine ⟨fun t ht pd hpd => ?_, h3⟩
    obtain ⟨t0, ht0, hh, _, hent⟩ := h2 t ht
    obtain ⟨a, b, c⟩ := hent pd hpd
    exact ⟨a, b, t0, ht0, hh, c⟩
  · refine ⟨List.Perm.refl _, fun t ht => ⟨t, ht, rfl, fun e he => he, ?_⟩, ?_⟩
    · intro pd hpd
      simp [moveEntries, hnil t ht] at hpd
    · intro mv hmv
      simp at hmv
  · intro l mvs h
    refine ⟨((hrt.1 l).map _).trans h.1, fun t ht => h.2.1 t ((hrt.1 l).subset ht), h.2.2⟩
  · intro k l mvs i j minTbl maxTbl e h hij hi hj he _
    obtain ⟨hperm, hrec, hmvs⟩ := h
    have hminl := mem_of_getElem?_some l i minTbl hi
    have hmaxl := mem_of_getElem?_some l j maxTbl hj
    have hj2 : (l.set i (recvTbl norm minTbl e))[j]? = some maxTbl := by
      rw [getElem?_set_other l i j _ hij]; exact hj
    have hne : minTbl.Host ≠ maxTbl.Host :=
      host_ne_of_nodup l i j minTbl maxTbl (hperm.nodup_iff.2 hnd) hij hi hj
    have hminh : minTbl.Host ∈ tbls.map (fun u => u.Host) :=
      hperm.subset (List.mem_map_of_mem _ hminl)
    obtain ⟨m0, hm0, hm0h, hm0p, hm0e⟩ := hrec maxTbl hmaxl
    have hem : e ∈ maxTbl.Partitions := (hrt.2 k _).subset he
    refine ⟨?_, ?_, ?_⟩
    · rw [hosts_set _ j maxTbl (sendTbl norm maxTbl minTbl e) hj2 rfl,
        hosts_set l i minTbl (recvTbl norm minTbl e) hi rfl]
      exact hperm
    · intro t ht
      rcases mem_set_set l i j _ _ t ht with ht | ht | ht
      · exact hrec t ht
      · subst ht
        exact hrec minTbl hminl
      · subst ht
        refine ⟨m0, hm0, hm0h, fun e2 h2 => hm0p e2 (mem_mapDelete _ _ _ h2), ?_⟩
        intro pd hpd
        simp only [moveEntries, sendTbl, Option.getD_some] at hpd
        rcases mem_mapSet _ _ _ _ hpd with hpd | hpd
        · exact hm0e pd hpd
        · subst hpd
          exact ⟨hne, hminh, List.mem_map_of_mem _ (hm0p e hem)⟩
    · intro mv hmv
      rcases List.mem_append.1 hmv with hmv | hmv
      · exact hmvs mv hmv
      · simp only [List.mem_singleton] at hmv
        subst hmv
        exact ⟨hne, hminh, m0, hm0, hm0h, hm0p e hem⟩

/-- Witness of C10 on the three-host sample cluster after three passes. -/
theorem generatePlan_no_self_move_witness :
    goRuntime.Valid ∧ (mixedCluster.map (fun t => t.Host)).Nodup ∧
      (∀ t ∈ mixedCluster, t.ToMoveOut = none) ∧
      (∀ mv ∈ (generatePlanRun wrap64 goRuntime 3 mixedCluster).moves,
        mv.dst ≠ mv.src ∧ mv.dst ∈ mixedCluster.map (fun u => u.Host) ∧
          ∃ t0 ∈ mixedCluster, t0.Host = mv.src ∧ (mv.patt, mv.size) ∈ t0.Partitions) :=
  ⟨goRuntime_valid, by decide, by decide,
    (generatePlan_no_self_move wrap64 goRuntime goRuntime_valid mixedCluster
      (by decide) (by decide) 3).2⟩

/-! ## The planner: defects -/

/-- C3 fails on the code: on `mixedCluster`, built as `getState` builds it, after
three passes host `h1` is a planned destination (`h3` sends it partition `p`) and
a planned source (it sends partition `d` to `h2`): `ToMoveIn` is never set. -/
theorem generatePlan_role_clash :
    (mixedCluster.map (fun t => t.Host)).Nodup ∧
      (∀ t ∈ mixedCluster, t.ToMoveOut = none ∧ t.ToMoveIn = false) ∧
      (∃ t ∈ (generatePlanRun wrap64 goRuntime 3 mixedCluster).tbls,
        t.Host = "h1" ∧ moveEntries t = [("d", "h2")]) ∧
      (∃ t ∈ (generatePlanRun wrap64 goRuntime 3 mixedCluster).tbls,
        ("p", "h1") ∈ moveEntries t) := by
  decide

/-- C4 fails on the code: on two nodes with totals 0 and 10, the second holding
one partition of size 10, every pass leaves the slice as it is and the loop never
reaches its `break`. -/
theorem generatePlan_never_breaks (n : Nat) :
    generatePlanRun wrap64 goRuntime n stuckCluster = ⟨stuckCluster, .running, []⟩ := by
  induction n with
  | zero => rfl
  | succ n ih =>
    have h : generatePlanIter wrap64 goRuntime n stuckCluster = .continued stuckCluster none := by
      rfl
    simp only [generatePlanRun, ih, h]
    rfl

/-- C9 fails on the code: on the empty list the scan for the source candidate
reads `tbls[-1]`, and when the node with the highest total is marked `ToMoveIn` it
steps upwards and reads `tbls[numTbls]`; both panic. -/
theorem generatePlan_scan_panics :
    generatePlanIter wrap64 goRuntime 0 [] = .panicked [] ∧
      generatePlanIter wrap64 goRuntime 0 markedCluster = .panicked markedCluster := by
  decide

/-! ## executePlan: fail-fast and the destination lock -/

theorem executeMoves_all_ok (ok : Nat → Bool) (host : String) (c : Nat)
    (l : List (String × String)) (h : ∀ i, i < 4 * l.length → ok (c + i) = true) :
    executeMoves ok host c l = (false, l.flatMap (fullTrace host)) := by
  induction l generalizing c with
  | nil => rfl
  | cons e rest ih =>
    have h0 : ok c = true := by simpa using h 0 (by simp)
    have h1 : ok (c + 1) = true := h 1 (by simp; omega)
    have h2 : ok (c + 2) = true := h 2 (by simp; omega)
    have h3 : ok (c + 3) = true := h 3 (by simp; omega)
    have hr := ih (c + 4) (fun i hi => by
      have := h (4 + i) (by simp only [List.length_cons]; omega)
      rw [← this]; congr 1; omega)
    simp [executeMoves, h0, h1, h2, h3, hr, fullTrace]

theorem executeMoves_fails (ok : Nat → Bool) (host : String) (c : Nat)
    (l : List (String × String)) (k j : Nat) (e : String × String)
    (hk : l[k]? = some e) (hj : j < 4) (hok : ∀ i, i < 4 * k + j → ok (c + i) = true)
    (hfail : ok (c + (4 * k + j)) = false) :
    executeMoves ok host c l =
      (true, (l.take k).flatMap (fullTrace host) ++ abortedTrace host e j) := by
  induction l generalizing c k with
  | nil => simp at hk
  | cons x rest ih =>
    cases k with
    | zero =>
      simp at hk
      subst hk
      simp only [Nat.mul_zero, Nat.zero_add] at hok hfail
      have hj4 : j = 0 ∨ j = 1 ∨ j = 2 ∨ j = 3 := by omega
      rcases hj4 with rfl | rfl | rfl | rfl
      · have hf : ok c = false := by simpa using hfail
        simp [executeMoves, hf, abortedTrace]
      · have h0 : ok c = true := by simpa using hok 0 (by omega)
        simp [executeMoves, h0, hfail, abortedTrace]
      · have h0 : ok c = true := by simpa using hok 0 (by omega)
        have h1 : ok (c + 1) = true := hok 1 (by omega)
        simp [executeMoves, h0, h1, hfail, abortedTrace]
      · have h0 : ok c = true := by simpa using hok 0 (by omega)
        have h1 : ok (c + 1) = true := hok 1 (by omega)
        have h2 : ok (c + 2) = true := hok 2 (by omega)
        simp [executeMoves, h0, h1, h2, hfail, abortedTrace]
    | succ k =>
      simp at hk
      have h0 : ok c = true := by simpa using hok 0 (by omega)
      have h1 : ok (c + 1) = true := hok 1 (by omega)
      have h2 : ok (c + 2) = true := hok 2 (by omega)
      have h3 : ok (c + 3) = true := hok 3 (by omega)
      have hr := ih (c + 4) k hk (fun i hi => by
        have := hok (4 + i) (by omega)
        rw [← this]; congr 1; omega) (by
        rw [← hfail]; congr 1; omega)
      simp [executeMoves, h0, h1, h2, h3, hr, fullTrace]

/-- C7 (fail-fast per node): for a node with planned moves, visited in any order
`ord`, and any outcomes `ok` of the catalog and remote commands: if no command
fails, `executePlan` returns nil after detach, lock, rsync, rm, attach, unlock
for every entry of `ToMoveOut` in turn; if the first failure is the `j`-th command
(detach, rsync, rm, attach) of the `k`-th move, it returns an error after the
complete sequences of the `k` moves before it and the commands of that move up to
the failing one, and nothing for the rest. -/
theorem executePlan_fail_fast (ok : Nat → Bool)
    (ord : List (String × String) → List (String × String)) (tbl : TblPartitions)
    (m : List (String × String)) (hm : tbl.ToMoveOut = some m) (hord : (ord m).Perm m) :
    ((∀ i, i < 4 * (ord m).length → ok i = true) →
      executePlan ok ord tbl = (false, (ord m).flatMap (fullTrace tbl.Host)) ∧
      ∀ e ∈ m, List.IsInfix (fullTrace tbl.Host e) (executePlan ok ord tbl).2) ∧
    (∀ k j e, (ord m)[k]? = some e → j < 4 → (∀ i, i < 4 * k + j → ok i = true) →
      ok (4 * k + j) = false →
      executePlan ok ord tbl =
        (true, ((ord m).take k).flatMap (fullTrace tbl.Host) ++ abortedTrace tbl.Host e j)) := by
  constructor
  · intro h
    have hrun : executePlan ok ord tbl = (false, (ord m).flatMap (fullTrace tbl.Host)) := by
      simp only [executePlan, hm]
      exact executeMoves_all_ok ok tbl.Host 0 (ord m) (fun i hi => by simpa using h i hi)
    refine ⟨hrun, fun e he => ?_⟩
    rw [hrun]
    exact List.infix_of_mem_flatten (List.mem_map_of_mem _ (hord.symm.subset he))
  · intro k j e hk hj hok hfail
    simp only [executePlan, hm]
    exact executeMoves_fails ok tbl.Host 0 (ord m) k j e hk hj
      (fun i hi => by simpa using hok i hi) (by simpa using hfail)

/-- Witness of C7: on `plannedTbl` with all commands succeeding both moves run in
full, and when the attach of the second move (command 7) fails the first move is
complete and the second stops at its attach. -/
theorem executePlan_fail_fast_witness :
    plannedTbl.ToMoveOut = some [("p", "h2"), ("q", "h3")] ∧
      executePlan (fun _ => true) id plannedTbl =
        (false, fullTrace "h1" ("p", "h2") ++ fullTrace "h1" ("q", "h3")) ∧
      executePlan (failsAt 7) id plannedTbl =
        (true, fullTrace "h1" ("p", "h2") ++ abortedTrace "h1" ("q", "h3") 3) :=
  ⟨rfl,
    by
      simpa using ((executePlan_fail_fast (fun _ => true) id plannedTbl
        [("p", "h2"), ("q", "h3")] rfl (List.Perm.refl _)).1 (fun _ _ => rfl)).1,
    by
      simpa using (executePlan_fail_fast (failsAt 7) id plannedTbl
        [("p", "h2"), ("q", "h3")] rfl (List.Perm.refl _)).2 1 3 ("q", "h3") rfl (by decide)
        (fun i hi => by simp only [failsAt, decide_eq_true_eq]; omega) (by decide)⟩

theorem executeMoves_lockDiscipline (ok : Nat → Bool) (host : String) (c : Nat)
    (l : List (String × String)) :
    lockDiscipline .idle (executeMoves ok host c l).2 = true := by
  induction l generalizing c with
  | nil => rfl
  | cons e rest ih =>
    simp only [executeMoves]
    split
    · simp [lockDiscipline]
    · split
      · simp [lockDiscipline]
      · split
        · simp [lockDiscipline]
        · split
          · simp [lockDiscipline]
          · simpa [lockDiscipline] using ih (c + 4)

/-- C8 (destination-lock discipline): in every run of `executePlan`, whichever
commands fail and in whichever order the moves are visited, the lock taken for a
move is the one keyed by its destination host, taken after the detach and before
the transfer, and released exactly once before the next move starts or the
function returns. -/
theorem executePlan_lock_discipline (ok : Nat → Bool)
    (ord : List (String × String) → List (String × String)) (tbl : TblPartitions) :
    lockDiscipline .idle (executePlan ok ord tbl).2 = true := by
  unfold executePlan
  split
  · rfl
  · exact executeMoves_lockDiscipline ok tbl.Host 0 _

/-- The check is not vacuous: it rejects a run that returns while holding the
lock, one that takes the lock of another host, and one that keeps the lock
across two moves. -/
theorem lockDiscipline_rejects :
    lockDiscipline .idle
        [⟨("p", "h2"), .detach "h1"⟩, ⟨("p", "h2"), .lock "h2"⟩,
          ⟨("p", "h2"), .rsync "h1" "h2"⟩] = false ∧
      lockDiscipline .idle
        [⟨("p", "h2"), .detach "h1"⟩, ⟨("p", "h2"), .lock "h1"⟩,
          ⟨("p", "h2"), .unlock "h1"⟩] = false ∧
      lockDiscipline .idle
        [⟨("p", "h2"), .detach "h1"⟩, ⟨("p", "h2"), .lock "h2"⟩,
          ⟨("q", "h2"), .detach "h1"⟩, ⟨("q", "h2"), .unlock "h2"⟩] = false := by
  decide

end Rebalancer
